import Mathlib

/-!
Verification of the PageRank power-iteration core in
`pipeline_pagerank/stage3_pagerank.py` (`compute_pagerank`).

The Python code is embedded shallowly over exact rational arithmetic:

* the input `outgoing` dict is a `List (ℕ × List ℕ)` of
  (page id, list of target page ids) pairs, keys distinct as in a dict;
* `pages = sorted(outgoing.keys(), key=int)` becomes an insertion sort;
* the sparse CSR adjacency matrix with per-source `set(targets)`
  deduplication and the `target in page_to_idx` membership filter becomes
  the 0/1 function `adjMatrix`;
* row normalization with the dangling clamp
  (`out_degree[out_degree == 0] = 1.0`) becomes `transMat`;
* the power-iteration loop, with its dual thresholds
  (`hw_tol = 0.005` recorded only, `fine_tol = n * 1e-6` stopping)
  becomes the fuel-indexed recursion `loopIter`;
* Python exceptions actually raised by the code are modelled by `PyErr`:
  an empty graph hits `1.0 / n` (ZeroDivisionError) before the loop, and
  `max_iterations = 0` leaves the loop-local `diff` unbound so the
  post-loop logging raises NameError.
-/

namespace PageRank

/-- Insert a key into an ascending-sorted list, keeping it sorted.
Helper for the model of Python `sorted`. -/
def insertSorted (a : ℕ) : List ℕ → List ℕ
  | [] => [a]
  | b :: l => if a ≤ b then a :: b :: l else b :: insertSorted a l

/-- Ascending insertion sort; models `sorted(keys, key=int)`. -/
def sortKeys : List ℕ → List ℕ
  | [] => []
  | a :: l => insertSorted a (sortKeys l)

/-- `pages = sorted(outgoing.keys(), key=int)`. -/
def sortedPages (outgoing : List (ℕ × List ℕ)) : List ℕ :=
  sortKeys (outgoing.map Prod.fst)

/-- `pages[i]`: the page id at dense index `i` (0 when out of range;
only indices below `outgoing.length` are ever used). -/
def pageAt (outgoing : List (ℕ × List ℕ)) (i : ℕ) : ℕ :=
  (sortedPages outgoing).getD i 0

/-- Dict access `outgoing[p]`: the raw target list of page `p`. -/
def targetsOf (outgoing : List (ℕ × List ℕ)) (p : ℕ) : List ℕ :=
  (outgoing.lookup p).getD []

/-- Edge from dense index `i` to dense index `j`: the code adds
`(src_idx, page_to_idx[target])` for `target in set(targets)` whose id is
a known page; membership in `set(targets)` is membership in the raw
target list, and a known target is exactly one at some dense index. -/
def Edge (outgoing : List (ℕ × List ℕ)) (i j : ℕ) : Prop :=
  i < outgoing.length ∧ j < outgoing.length ∧
    pageAt outgoing j ∈ targetsOf outgoing (pageAt outgoing i)

instance (outgoing : List (ℕ × List ℕ)) (i j : ℕ) :
    Decidable (Edge outgoing i j) := by
  unfold Edge; infer_instance

/-- The 0/1 adjacency matrix `A` built by `csr_matrix` after per-source
deduplication (`set(targets)` makes every retained entry weight 1). -/
def adjMatrix (outgoing : List (ℕ × List ℕ)) (i j : ℕ) : ℚ :=
  if Edge outgoing i j then 1 else 0

/-- Row sum of the adjacency matrix:
`out_degree = np.array(A.sum(axis=1)).flatten()`. -/
def outDeg (n : ℕ) (A : ℕ → ℕ → ℚ) (i : ℕ) : ℚ :=
  ∑ j ∈ Finset.range n, A i j

/-- The clamped out-degree used for row normalization:
`out_degree[out_degree == 0] = 1.0`. -/
def clampDeg (n : ℕ) (A : ℕ → ℕ → ℚ) (i : ℕ) : ℚ :=
  if outDeg n A i = 0 then 1 else outDeg n A i

/-- The row-normalized transition matrix `A = D_inv @ A`:
each entry of row `i` is divided by the clamped out-degree. -/
def transMat (n : ℕ) (A : ℕ → ℕ → ℚ) (i j : ℕ) : ℚ :=
  A i j / clampDeg n A i

/-- `dangling_sum = x[is_dangling].sum()` where
`is_dangling = np.where(out_degree == 0)[0]`. -/
def danglingSum (n : ℕ) (A : ℕ → ℕ → ℚ) (x : ℕ → ℚ) : ℚ :=
  ∑ i ∈ Finset.range n, if outDeg n A i = 0 then x i else 0

/-- One un-normalized update:
`damping * (x @ A + dangling_sum / n) + teleport` with
`teleport = (1.0 - damping) / n`, evaluated at entry `j`. -/
def preStep (n : ℕ) (A : ℕ → ℕ → ℚ) (d : ℚ) (x : ℕ → ℚ) (j : ℕ) : ℚ :=
  d * ((∑ i ∈ Finset.range n, x i * transMat n A i j) + danglingSum n A x / n)
    + (1 - d) / n

/-- `x.sum()` right after the update, used by `x /= x.sum()`. -/
def stepSum (n : ℕ) (A : ℕ → ℕ → ℚ) (d : ℚ) (x : ℕ → ℚ) : ℚ :=
  ∑ j ∈ Finset.range n, preStep n A d x j

/-- One full iteration of the loop body: update then L1-renormalize. -/
def step (n : ℕ) (A : ℕ → ℕ → ℚ) (d : ℚ) (x : ℕ → ℚ) (j : ℕ) : ℚ :=
  preStep n A d x j / stepSum n A d x

/-- `diff = np.abs(x - x_prev).sum()`. -/
def l1diff (n : ℕ) (x y : ℕ → ℚ) : ℚ :=
  ∑ j ∈ Finset.range n, |x j - y j|

/-- `hw_tol = 0.005`. -/
def hwTol : ℚ := 5 / 1000

/-- `fine_tol = n * 1.0e-6`. -/
def fineTol (n : ℕ) : ℚ := n * (1 / 1000000)

/-- The observable state of the iteration loop when it finishes:
the rank vector `x`, how many iterations ran, whether the loop exited
through the fine-threshold `break`, and the recorded
`hw_converged_at` diagnostic. -/
structure SolveResult where
  x : ℕ → ℚ
  iters : ℕ
  converged : Bool
  hwAt : Option ℕ

/-- The `for iteration in range(max_iterations)` loop of
`compute_pagerank`, with `fuel` the remaining iteration budget and
`iter` the number of iterations already executed.  Each pass updates
`x`, computes `diff` and `change_pct`, records the first iteration
meeting the coarse threshold in `hwAt`, and `break`s exactly when
`diff < fine_tol`. -/
def loopIter (n : ℕ) (A : ℕ → ℕ → ℚ) (d : ℚ) :
    ℕ → ℕ → (ℕ → ℚ) → Option ℕ → SolveResult
  | 0, iter, x, hwAt => ⟨x, iter, false, hwAt⟩
  | fuel + 1, iter, x, hwAt =>
    let xNew := step n A d x
    let diff := l1diff n xNew x
    let changePct := diff / ∑ j ∈ Finset.range n, x j
    let hwAt' := if hwAt = none ∧ changePct < hwTol then some (iter + 1) else hwAt
    if diff < fineTol n then ⟨xNew, iter + 1, true, hwAt'⟩
    else loopIter n A d fuel (iter + 1) xNew hwAt'

/-- `x = np.full(n, 1.0 / n)`: the uniform initial vector. -/
def initVec (n : ℕ) : ℕ → ℚ := fun _ => 1 / n

/-- The whole solve on a graph: build the matrix data and run the loop
from the uniform vector with the full iteration budget. -/
def solve (outgoing : List (ℕ × List ℕ)) (d : ℚ) (maxIterations : ℕ) :
    SolveResult :=
  loopIter outgoing.length (adjMatrix outgoing) d maxIterations 0
    (initVec outgoing.length) none

/-- Python exceptions relevant to `compute_pagerank`, together with the
spec's error taxonomy.  `zeroDivisionError` and `nameError` are the
exceptions the code actually raises; `emptyGraph` and `invalidDamping`
are modelled from the spec's error taxonomy (section 7), which the code
never produces. -/
inductive PyErr where
  | zeroDivisionError
  | nameError
  | emptyGraph
  | invalidDamping
deriving DecidableEq

instance {ε α : Type} [DecidableEq ε] [DecidableEq α] : DecidableEq (Except ε α)
  | .error a, .error b =>
    if h : a = b then .isTrue (by rw [h]) else .isFalse (by simp [h])
  | .error _, .ok _ => .isFalse (by simp)
  | .ok _, .error _ => .isFalse (by simp)
  | .ok a, .ok b =>
    if h : a = b then .isTrue (by rw [h]) else .isFalse (by simp [h])

/-- `compute_pagerank(outgoing, incoming, damping, max_iterations)`.
On an empty node set the code raises ZeroDivisionError at
`x = np.full(n, 1.0 / n)` before any iteration; with
`max_iterations = 0` the loop body never runs and the post-loop
`print_step(f"Final diff={diff:...}")` raises NameError on the unbound
loop-local `diff`; otherwise it returns the dict
`{pages[i]: x[i] for i in range(n)}` and nothing else.  The `incoming`
argument is never read by the body. -/
def computePagerank (outgoing incoming : List (ℕ × List ℕ)) (damping : ℚ)
    (maxIterations : ℕ) : Except PyErr (List (ℕ × ℚ)) :=
  if outgoing.length = 0 then .error .zeroDivisionError
  else if maxIterations = 0 then .error .nameError
  else .ok ((List.range outgoing.length).map fun i =>
    (pageAt outgoing i, (solve outgoing damping maxIterations).x i))

/-- The iterate of the loop body: the rank vector after `k` completed
iterations, starting from the uniform vector. -/
def xIter (n : ℕ) (A : ℕ → ℕ → ℚ) (d : ℚ) (k : ℕ) : ℕ → ℚ :=
  (step n A d)^[k] (initVec n)

/-- The `diff` value produced by iteration `k+1` of the solve. -/
def diffAt (n : ℕ) (A : ℕ → ℕ → ℚ) (d : ℚ) (k : ℕ) : ℚ :=
  l1diff n (xIter n A d (k + 1)) (xIter n A d k)

section Lemmas

variable {n : ℕ} {A : ℕ → ℕ → ℚ} {d : ℚ} {x : ℕ → ℚ}

lemma adjMatrix_nonneg (outgoing : List (ℕ × List ℕ)) (i j : ℕ) :
    0 ≤ adjMatrix outgoing i j := by
  unfold adjMatrix; split <;> norm_num

lemma outDeg_nonneg (hA : ∀ i j, 0 ≤ A i j) (i : ℕ) : 0 ≤ outDeg n A i :=
  Finset.sum_nonneg fun j _ => hA i j

lemma clampDeg_pos (hA : ∀ i j, 0 ≤ A i j) (i : ℕ) : 0 < clampDeg n A i := by
  unfold clampDeg
  split
  · norm_num
  · exact lt_of_le_of_ne (outDeg_nonneg hA i) (Ne.symm ‹_›)

lemma transMat_nonneg (hA : ∀ i j, 0 ≤ A i j) (i j : ℕ) :
    0 ≤ transMat n A i j :=
  div_nonneg (hA i j) (clampDeg_pos hA i).le

lemma sum_transMat_row (i : ℕ) :
    ∑ j ∈ Finset.range n, transMat n A i j
      = if outDeg n A i = 0 then 0 else 1 := by
  unfold transMat clampDeg
  rw [← Finset.sum_div]
  split_ifs with h
  · rw [div_one]; exact h
  · exact div_self h

lemma sum_mul_transMat (x : ℕ → ℚ) :
    ∑ j ∈ Finset.range n, ∑ i ∈ Finset.range n, x i * transMat n A i j
      = ∑ i ∈ Finset.range n, (if outDeg n A i = 0 then 0 else x i) := by
  rw [Finset.sum_comm]
  refine Finset.sum_congr rfl fun i _ => ?_
  rw [← Finset.mul_sum, sum_transMat_row]
  split_ifs <;> simp

lemma propagated_add_dangling (x : ℕ → ℚ) :
    (∑ i ∈ Finset.range n, (if outDeg n A i = 0 then 0 else x i))
        + danglingSum n A x
      = ∑ i ∈ Finset.range n, x i := by
  unfold danglingSum
  rw [← Finset.sum_add_distrib]
  refine Finset.sum_congr rfl fun i _ => ?_
  split_ifs <;> ring

lemma stepSum_eq_one (hn : 0 < n)
    (hx : ∑ i ∈ Finset.range n, x i = 1) : stepSum n A d x = 1 := by
  have hn' : (n : ℚ) ≠ 0 := Nat.cast_ne_zero.mpr hn.ne'
  unfold stepSum preStep
  rw [Finset.sum_add_distrib, ← Finset.mul_sum, Finset.sum_add_distrib,
    Finset.sum_const, Finset.card_range, nsmul_eq_mul,
    mul_div_cancel₀ _ hn', sum_mul_transMat, propagated_add_dangling, hx,
    Finset.sum_const, Finset.card_range, nsmul_eq_mul, mul_div_cancel₀ _ hn']
  ring

lemma step_eq_preStep (hn : 0 < n)
    (hx : ∑ i ∈ Finset.range n, x i = 1) :
    step n A d x = preStep n A d x := by
  funext j
  unfold step
  rw [stepSum_eq_one hn hx, div_one]

lemma sum_step (hn : 0 < n) (hx : ∑ i ∈ Finset.range n, x i = 1) :
    ∑ j ∈ Finset.range n, step n A d x j = 1 := by
  rw [step_eq_preStep hn hx]
  exact stepSum_eq_one hn hx

lemma danglingSum_nonneg (hx : ∀ i, 0 ≤ x i) : 0 ≤ danglingSum n A x :=
  Finset.sum_nonneg fun i _ => by split_ifs; exacts [hx i, le_refl 0]

lemma preStep_ge_teleport (hA : ∀ i j, 0 ≤ A i j) (hd : 0 ≤ d)
    (hx : ∀ i, 0 ≤ x i) (j : ℕ) : (1 - d) / n ≤ preStep n A d x j := by
  unfold preStep
  have h1 : 0 ≤ ∑ i ∈ Finset.range n, x i * transMat n A i j :=
    Finset.sum_nonneg fun i _ => mul_nonneg (hx i) (transMat_nonneg hA i j)
  have h2 : 0 ≤ danglingSum n A x / n :=
    div_nonneg (danglingSum_nonneg hx) (Nat.cast_nonneg n)
  exact le_add_of_nonneg_left (mul_nonneg hd (add_nonneg h1 h2))

lemma preStep_nonneg (hA : ∀ i j, 0 ≤ A i j) (hd0 : 0 ≤ d) (hd1 : d ≤ 1)
    (hx : ∀ i, 0 ≤ x i) (j : ℕ) : 0 ≤ preStep n A d x j :=
  le_trans (div_nonneg (by linarith) (Nat.cast_nonneg n))
    (preStep_ge_teleport hA hd0 hx j)

lemma initVec_nonneg (i : ℕ) : 0 ≤ initVec n i := by
  unfold initVec
  positivity

lemma initVec_sum (hn : 0 < n) : ∑ i ∈ Finset.range n, initVec n i = 1 := by
  have hn' : (n : ℚ) ≠ 0 := Nat.cast_ne_zero.mpr hn.ne'
  unfold initVec
  rw [Finset.sum_const, Finset.card_range, nsmul_eq_mul, mul_one_div,
    div_self hn']

lemma xIter_invariant (hA : ∀ i j, 0 ≤ A i j) (hd0 : 0 ≤ d) (hd1 : d ≤ 1)
    (hn : 0 < n) (k : ℕ) :
    (∀ i, 0 ≤ xIter n A d k i) ∧
      ∑ i ∈ Finset.range n, xIter n A d k i = 1 := by
  induction k with
  | zero => exact ⟨initVec_nonneg, initVec_sum hn⟩
  | succ k ih =>
    obtain ⟨hpos, hsum⟩ := ih
    have hstep : xIter n A d (k + 1) = step n A d (xIter n A d k) := by
      unfold xIter
      rw [Function.iterate_succ_apply']
    refine ⟨fun i => ?_, ?_⟩
    · rw [hstep, step_eq_preStep hn hsum]
      exact preStep_nonneg hA hd0 hd1 hpos i
    · rw [hstep]
      exact sum_step hn hsum

lemma xIter_floor (hA : ∀ i j, 0 ≤ A i j) (hd0 : 0 ≤ d) (hd1 : d ≤ 1)
    (hn : 0 < n) (k : ℕ) (hk : 1 ≤ k) (i : ℕ) :
    (1 - d) / n ≤ xIter n A d k i := by
  obtain ⟨k', rfl⟩ : ∃ k', k = k' + 1 := ⟨k - 1, by omega⟩
  obtain ⟨hpos, hsum⟩ := xIter_invariant hA hd0 hd1 hn k'
  have hstep : xIter n A d (k' + 1) = step n A d (xIter n A d k') := by
    unfold xIter
    rw [Function.iterate_succ_apply']
  rw [hstep, step_eq_preStep hn hsum]
  exact preStep_ge_teleport hA hd0 hpos i

lemma iterate_shift (f : (ℕ → ℚ) → ℕ → ℚ) (j : ℕ) (x : ℕ → ℚ) :
    f^[j] (f x) = f^[j + 1] x :=
  (Function.iterate_succ_apply f j x).symm

lemma loopIter_exhaust (fuel : ℕ) :
    ∀ (iter : ℕ) (x : ℕ → ℚ) (hwAt : Option ℕ),
      (∀ j < fuel,
        ¬ l1diff n ((step n A d)^[j + 1] x) ((step n A d)^[j] x) < fineTol n) →
      (loopIter n A d fuel iter x hwAt).x = (step n A d)^[fuel] x ∧
        (loopIter n A d fuel iter x hwAt).iters = iter + fuel ∧
        (loopIter n A d fuel iter x hwAt).converged = false := by
  induction fuel with
  | zero =>
    intro iter x hw _
    simp [loopIter]
  | succ fuel ih =>
    intro iter x hw h
    have h0 : ¬ l1diff n (step n A d x) x < fineTol n := by
      simpa using h 0 (Nat.succ_pos _)
    simp only [loopIter]
    rw [if_neg h0]
    have hrec := ih (iter + 1) (step n A d x)
      (if hw = none ∧
          l1diff n (step n A d x) x / ∑ j ∈ Finset.range n, x j < hwTol then
        some (iter + 1) else hw)
      (fun j hj => by
        rw [iterate_shift, iterate_shift]
        exact h (j + 1) (by omega))
    refine ⟨?_, ?_, hrec.2.2⟩
    · rw [hrec.1, iterate_shift]
    · rw [hrec.2.1]; omega

lemma loopIter_first (fuel : ℕ) :
    ∀ (k iter : ℕ) (x : ℕ → ℚ) (hwAt : Option ℕ),
      k < fuel →
      (∀ j < k,
        ¬ l1diff n ((step n A d)^[j + 1] x) ((step n A d)^[j] x) < fineTol n) →
      l1diff n ((step n A d)^[k + 1] x) ((step n A d)^[k] x) < fineTol n →
      (loopIter n A d fuel iter x hwAt).x = (step n A d)^[k + 1] x ∧
        (loopIter n A d fuel iter x hwAt).iters = iter + k + 1 ∧
        (loopIter n A d fuel iter x hwAt).converged = true := by
  induction fuel with
  | zero =>
    intro k iter x hw hk
    exact absurd hk (Nat.not_lt_zero k)
  | succ fuel ih =>
    intro k iter x hw hk hmin hlt
    cases k with
    | zero =>
      have h0 : l1diff n (step n A d x) x < fineTol n := by simpa using hlt
      simp only [loopIter]
      rw [if_pos h0]
      simp
    | succ k =>
      have h0 : ¬ l1diff n (step n A d x) x < fineTol n := by
        simpa using hmin 0 (Nat.succ_pos _)
      simp only [loopIter]
      rw [if_neg h0]
      have hrec := ih k (iter + 1) (step n A d x)
        (if hw = none ∧
            l1diff n (step n A d x) x / ∑ j ∈ Finset.range n, x j < hwTol then
          some (iter + 1) else hw)
        (by omega)
        (fun j hj => by
          rw [iterate_shift, iterate_shift]
          exact hmin (j + 1) (by omega))
        (by rw [iterate_shift, iterate_shift]; exact hlt)
      refine ⟨?_, ?_, hrec.2.2⟩
      · rw [hrec.1, iterate_shift]
      · rw [hrec.2.1]; omega

lemma loopIter_pow (fuel : ℕ) :
    ∀ (iter : ℕ) (x : ℕ → ℚ) (hwAt : Option ℕ),
      ∃ m, m ≤ fuel ∧ (1 ≤ fuel → 1 ≤ m) ∧
        (loopIter n A d fuel iter x hwAt).x = (step n A d)^[m] x ∧
        (loopIter n A d fuel iter x hwAt).iters = iter + m := by
  induction fuel with
  | zero =>
    intro iter x hw
    exact ⟨0, le_refl 0, by omega, by simp [loopIter], by simp [loopIter]⟩
  | succ fuel ih =>
    intro iter x hw
    simp only [loopIter]
    by_cases hc : l1diff n (step n A d x) x < fineTol n
    · rw [if_pos hc]
      exact ⟨1, by omega, fun _ => le_refl 1, by simp, by simp⟩
    · rw [if_neg hc]
      obtain ⟨m, hm, _, hx', hi⟩ := ih (iter + 1) (step n A d x)
        (if hw = none ∧
            l1diff n (step n A d x) x / ∑ j ∈ Finset.range n, x j < hwTol then
          some (iter + 1) else hw)
      exact ⟨m + 1, by omega, fun _ => by omega,
        by rw [hx', iterate_shift], by rw [hi]; omega⟩

lemma loopIter_unconverged (fuel : ℕ) :
    ∀ (iter : ℕ) (x : ℕ → ℚ) (hwAt : Option ℕ),
      (loopIter n A d fuel iter x hwAt).converged = false →
      (loopIter n A d fuel iter x hwAt).iters = iter + fuel := by
  induction fuel with
  | zero =>
    intro iter x hw _
    simp [loopIter]
  | succ fuel ih =>
    intro iter x hw h
    simp only [loopIter] at h ⊢
    by_cases hc : l1diff n (step n A d x) x < fineTol n
    · rw [if_pos hc] at h
      exact absurd h (by simp)
    · rw [if_neg hc] at h ⊢
      rw [ih _ _ _ h]
      omega

end Lemmas

/-- Modelled from the spec: the convergence policy of section 4.3 with
only the fine stopping rule `diff < N * 1e-6` — no coarse bookkeeping at
all.  Returns (final vector, iterations executed, converged?).  Comparing
the code's loop against this shows the coarse threshold influences
nothing except the recorded diagnostic. -/
def fineLoop (n : ℕ) (A : ℕ → ℕ → ℚ) (d : ℚ) :
    ℕ → (ℕ → ℚ) → (ℕ → ℚ) × ℕ × Bool
  | 0, x => (x, 0, false)
  | fuel + 1, x =>
    let xNew := step n A d x
    if l1diff n xNew x < fineTol n then (xNew, 1, true)
    else
      let r := fineLoop n A d fuel xNew
      (r.1, r.2.1 + 1, r.2.2)

section LoopEq

variable {n : ℕ} {A : ℕ → ℕ → ℚ} {d : ℚ}

lemma loopIter_eq_fineLoop (fuel : ℕ) :
    ∀ (iter : ℕ) (x : ℕ → ℚ) (hwAt : Option ℕ),
      (loopIter n A d fuel iter x hwAt).x = (fineLoop n A d fuel x).1 ∧
        (loopIter n A d fuel iter x hwAt).iters
          = iter + (fineLoop n A d fuel x).2.1 ∧
        (loopIter n A d fuel iter x hwAt).converged
          = (fineLoop n A d fuel x).2.2 := by
  induction fuel with
  | zero =>
    intro iter x hw
    simp [loopIter, fineLoop]
  | succ fuel ih =>
    intro iter x hw
    simp only [loopIter, fineLoop]
    by_cases hc : l1diff n (step n A d x) x < fineTol n
    · rw [if_pos hc, if_pos hc]
      exact ⟨rfl, rfl, rfl⟩
    · rw [if_neg hc, if_neg hc]
      obtain ⟨h1, h2, h3⟩ := ih (iter + 1) (step n A d x)
        (if hw = none ∧
            l1diff n (step n A d x) x / ∑ j ∈ Finset.range n, x j < hwTol then
          some (iter + 1) else hw)
      exact ⟨h1, by rw [h2]; dsimp only; omega, h3⟩

end LoopEq

/-- Modelled from the spec (C1, step 1): the dangling mass
`Σ x[i]` over `i ∈ DanglingSet`; the dangling set is the set of indices
of out-degree zero. -/
def specDanglingMass (outgoing : List (ℕ × List ℕ)) (x : ℕ → ℚ) : ℚ :=
  ∑ i ∈ Finset.range outgoing.length,
    if outDeg outgoing.length (adjMatrix outgoing) i = 0 then x i else 0

/-- Modelled from the spec (C1, step 2):
`propagated[j] = Σ x[i]/OutDegree(i)` over the edges `i → j`. -/
def specPropagated (outgoing : List (ℕ × List ℕ)) (x : ℕ → ℚ) (j : ℕ) : ℚ :=
  ∑ i ∈ Finset.range outgoing.length,
    if Edge outgoing i j then
      x i / outDeg outgoing.length (adjMatrix outgoing) i
    else 0

/-- Modelled from the spec (C1, step 3):
`x_new[j] = (1-d)/N + d*(propagated[j] + dangling_mass/N)`. -/
def specNewRank (outgoing : List (ℕ × List ℕ)) (d : ℚ) (x : ℕ → ℚ)
    (j : ℕ) : ℚ :=
  (1 - d) / outgoing.length
    + d * (specPropagated outgoing x j
        + specDanglingMass outgoing x / outgoing.length)

/-- Modelled from the spec (C1, step 4): rescale `x_new` so it sums
to 1, by dividing through by its current sum. -/
def specStep (outgoing : List (ℕ × List ℕ)) (d : ℚ) (x : ℕ → ℚ)
    (j : ℕ) : ℚ :=
  specNewRank outgoing d x j
    / ∑ j' ∈ Finset.range outgoing.length, specNewRank outgoing d x j'

lemma outDeg_pos_of_edge {o : List (ℕ × List ℕ)} {i j : ℕ} (h : Edge o i j) :
    outDeg o.length (adjMatrix o) i ≠ 0 := by
  have hj : j ∈ Finset.range o.length := Finset.mem_range.mpr h.2.1
  have h1 : (1 : ℚ) ≤ outDeg o.length (adjMatrix o) i := by
    have hs := Finset.single_le_sum (f := fun j' => adjMatrix o i j')
      (fun j' _ => adjMatrix_nonneg o i j') hj
    simp only at hs
    rwa [show adjMatrix o i j = 1 from if_pos h] at hs
  intro h0
  rw [h0] at h1
  norm_num at h1

lemma preStep_eq_specNewRank (o : List (ℕ × List ℕ)) (d : ℚ) (x : ℕ → ℚ)
    (j : ℕ) :
    preStep o.length (adjMatrix o) d x j = specNewRank o d x j := by
  unfold preStep specNewRank
  have hprop :
      ∑ i ∈ Finset.range o.length, x i * transMat o.length (adjMatrix o) i j
        = specPropagated o x j := by
    unfold specPropagated
    refine Finset.sum_congr rfl fun i _ => ?_
    unfold transMat clampDeg
    by_cases h : Edge o i j
    · rw [if_pos h, show adjMatrix o i j = 1 from if_pos h,
        if_neg (outDeg_pos_of_edge h), mul_one_div]
    · rw [if_neg h, show adjMatrix o i j = 0 from if_neg h]
      simp
  have hds : danglingSum o.length (adjMatrix o) x = specDanglingMass o x := rfl
  rw [hprop, hds]
  ring

lemma step_eq_specStep (o : List (ℕ × List ℕ)) (d : ℚ) (x : ℕ → ℚ) :
    step o.length (adjMatrix o) d x = specStep o d x := by
  funext j
  unfold step specStep stepSum
  rw [preStep_eq_specNewRank]
  congr 1
  exact Finset.sum_congr rfl fun j' _ => preStep_eq_specNewRank o d x j'

/-- Claim C1: on a graph with `N ≥ 1` nodes, one solver iteration applied
to a previous iterate `x` summing to 1 is exactly: dangling mass summed
over the dangling indices, `propagated[j] = Σ x[i]/OutDegree(i)` over the
edges `i → j`, `x_new[j] = (1-d)/N + d*(propagated[j] + dangling_mass/N)`
for every `j` (teleport and dangling mass spread uniformly over all `N`
nodes), and then rescaling so the result sums to 1 — in exact arithmetic
the rescaled vector does sum to 1. -/
theorem iteration_matches_spec_formula (outgoing : List (ℕ × List ℕ))
    (d : ℚ) (x : ℕ → ℚ) (hn : 1 ≤ outgoing.length)
    (hx : ∑ i ∈ Finset.range outgoing.length, x i = 1) :
    step outgoing.length (adjMatrix outgoing) d x = specStep outgoing d x ∧
      ∑ j ∈ Finset.range outgoing.length,
        step outgoing.length (adjMatrix outgoing) d x j = 1 :=
  ⟨step_eq_specStep outgoing d x, sum_step hn hx⟩

unseal Rat.add Rat.mul Rat.inv Rat.sub in
theorem iteration_matches_spec_formula_witness :
    (1 ≤ ([(0, [1]), (1, [0])] : List (ℕ × List ℕ)).length ∧
      ∑ i ∈ Finset.range ([(0, [1]), (1, [0])] :
          List (ℕ × List ℕ)).length, (fun _ => (1 : ℚ) / 2) i = 1) ∧
    (step ([(0, [1]), (1, [0])] : List (ℕ × List ℕ)).length
        (adjMatrix [(0, [1]), (1, [0])]) (17 / 20) (fun _ => (1 : ℚ) / 2)
        = specStep [(0, [1]), (1, [0])] (17 / 20) (fun _ => (1 : ℚ) / 2) ∧
      ∑ j ∈ Finset.range ([(0, [1]), (1, [0])] :
          List (ℕ × List ℕ)).length,
        step ([(0, [1]), (1, [0])] : List (ℕ × List ℕ)).length
          (adjMatrix [(0, [1]), (1, [0])]) (17 / 20)
          (fun _ => (1 : ℚ) / 2) j = 1) :=
  ⟨⟨by decide, by decide⟩,
    iteration_matches_spec_formula [(0, [1]), (1, [0])] (17 / 20)
      (fun _ => (1 : ℚ) / 2) (by decide) (by decide)⟩

/-- Claim C2: the iteration loop stops at the first iteration whose
absolute L1 difference satisfies `diff < N * 1e-6` (or when
`max_iterations` is exhausted), and never stops because the coarse
relative threshold `change_pct < 0.005` holds.  First conjunct: the
loop's vector, iteration count and convergence outcome all coincide with
those of the fine-threshold-only loop, so the coarse threshold feeds
nothing but the recorded `hw_converged_at` diagnostic.  Second and
third conjuncts: the loop returns after `k+1` iterations exactly when
iteration `k+1` is the first with `diff < N * 1e-6`, and runs the full
budget otherwise. -/
theorem fine_threshold_stopping (outgoing : List (ℕ × List ℕ)) (d : ℚ)
    (maxIterations : ℕ) :
    ((solve outgoing d maxIterations).x
        = (fineLoop outgoing.length (adjMatrix outgoing) d maxIterations
            (initVec outgoing.length)).1 ∧
      (solve outgoing d maxIterations).iters
        = (fineLoop outgoing.length (adjMatrix outgoing) d maxIterations
            (initVec outgoing.length)).2.1 ∧
      (solve outgoing d maxIterations).converged
        = (fineLoop outgoing.length (adjMatrix outgoing) d maxIterations
            (initVec outgoing.length)).2.2) ∧
    (∀ k < maxIterations,
      (∀ j < k, ¬ diffAt outgoing.length (adjMatrix outgoing) d j
          < fineTol outgoing.length) →
      diffAt outgoing.length (adjMatrix outgoing) d k
          < fineTol outgoing.length →
      (solve outgoing d maxIterations).iters = k + 1 ∧
        (solve outgoing d maxIterations).converged = true ∧
        (solve outgoing d maxIterations).x
          = xIter outgoing.length (adjMatrix outgoing) d (k + 1)) ∧
    ((∀ k < maxIterations,
        ¬ diffAt outgoing.length (adjMatrix outgoing) d k
          < fineTol outgoing.length) →
      (solve outgoing d maxIterations).iters = maxIterations ∧
        (solve outgoing d maxIterations).converged = false ∧
        (solve outgoing d maxIterations).x
          = xIter outgoing.length (adjMatrix outgoing) d maxIterations) := by
  refine ⟨?_, ?_, ?_⟩
  · obtain ⟨h1, h2, h3⟩ := loopIter_eq_fineLoop (n := outgoing.length)
      (A := adjMatrix outgoing) (d := d) maxIterations 0
      (initVec outgoing.length) none
    rw [zero_add] at h2
    exact ⟨h1, h2, h3⟩
  · intro k hk hmin hlt
    obtain ⟨g1, g2, g3⟩ := loopIter_first (n := outgoing.length)
      (A := adjMatrix outgoing) (d := d) maxIterations k 0
      (initVec outgoing.length) none hk hmin hlt
    have g2' : (solve outgoing d maxIterations).iters = 0 + k + 1 := g2
    exact ⟨by rw [g2']; omega, g3, g1⟩
  · intro hall
    obtain ⟨g1, g2, g3⟩ := loopIter_exhaust (n := outgoing.length)
      (A := adjMatrix outgoing) (d := d) maxIterations 0
      (initVec outgoing.length) none hall
    have g2' : (solve outgoing d maxIterations).iters = 0 + maxIterations := g2
    exact ⟨by rw [g2']; omega, g3, g1⟩

unseal Rat.add Rat.mul Rat.inv Rat.sub in
theorem fine_threshold_stopping_witness :
    ((1 < 2 ∧
        (∀ j < 1, ¬ diffAt 2 (adjMatrix [(0, [0]), (1, [0])]) (17 / 20) j
          < fineTol 2) ∧
        diffAt 2 (adjMatrix [(0, [0]), (1, [0])]) (17 / 20) 1 < fineTol 2)) ∧
    ((solve [(0, [0]), (1, [0])] (17 / 20) 2).iters = 1 + 1 ∧
      (solve [(0, [0]), (1, [0])] (17 / 20) 2).converged = true ∧
      (solve [(0, [0]), (1, [0])] (17 / 20) 2).x
        = xIter 2 (adjMatrix [(0, [0]), (1, [0])]) (17 / 20) (1 + 1)) :=
  ⟨⟨by decide, by decide, by decide⟩,
    (fine_threshold_stopping [(0, [0]), (1, [0])] (17 / 20) 2).2.1 1
      (by decide) (by decide) (by decide)⟩

/-- Claim C3: for a valid graph (`N ≥ 1`, damping in `(0,1)`), after every
completed iteration and at termination the rank vector has non-negative
entries and sums to 1 — in the exact-arithmetic model the sum is exactly
1, well within the spec's 1e-9 tolerance. -/
theorem rank_vector_sums_to_one (outgoing : List (ℕ × List ℕ)) (d : ℚ)
    (maxIterations k : ℕ) (hn : 1 ≤ outgoing.length) (hd0 : 0 < d)
    (hd1 : d < 1) :
    ((∀ i, 0 ≤ xIter outgoing.length (adjMatrix outgoing) d k i) ∧
      ∑ i ∈ Finset.range outgoing.length,
        xIter outgoing.length (adjMatrix outgoing) d k i = 1) ∧
    ((∀ i, 0 ≤ (solve outgoing d maxIterations).x i) ∧
      ∑ i ∈ Finset.range outgoing.length,
        (solve outgoing d maxIterations).x i = 1) := by
  have hA := adjMatrix_nonneg outgoing
  refine ⟨xIter_invariant hA hd0.le hd1.le hn k, ?_⟩
  obtain ⟨m, _, _, hx', _⟩ := loopIter_pow (n := outgoing.length)
    (A := adjMatrix outgoing) (d := d) maxIterations 0
    (initVec outgoing.length) none
  have hsx : (solve outgoing d maxIterations).x
      = xIter outgoing.length (adjMatrix outgoing) d m := hx'
  rw [hsx]
  exact xIter_invariant hA hd0.le hd1.le hn m

unseal Rat.add Rat.mul Rat.inv Rat.sub in
theorem rank_vector_sums_to_one_witness :
    (1 ≤ ([(0, [1]), (1, [])] : List (ℕ × List ℕ)).length ∧
      (0 : ℚ) < 17 / 20 ∧ (17 : ℚ) / 20 < 1) ∧
    (((∀ i, 0 ≤ xIter ([(0, [1]), (1, [])] :
          List (ℕ × List ℕ)).length (adjMatrix [(0, [1]), (1, [])])
          (17 / 20) 3 i) ∧
      ∑ i ∈ Finset.range ([(0, [1]), (1, [])] :
          List (ℕ × List ℕ)).length,
        xIter ([(0, [1]), (1, [])] : List (ℕ × List ℕ)).length
          (adjMatrix [(0, [1]), (1, [])]) (17 / 20) 3 i = 1) ∧
    ((∀ i, 0 ≤ (solve [(0, [1]), (1, [])] (17 / 20) 5).x i) ∧
      ∑ i ∈ Finset.range ([(0, [1]), (1, [])] :
          List (ℕ × List ℕ)).length,
        (solve [(0, [1]), (1, [])] (17 / 20) 5).x i = 1)) :=
  ⟨⟨by decide, by decide, by decide⟩,
    rank_vector_sums_to_one [(0, [1]), (1, [])] (17 / 20) 5 3
      (by decide) (by decide) (by decide)⟩

/-- Claim C7: for a valid graph and damping, once the first iteration has
completed every rank entry is at least the teleport floor `(1-d)/N`, and
this survives the per-iteration renormalization — it holds after every
iteration count `k ≥ 1` and for the vector the solve returns. -/
theorem teleport_floor_holds (outgoing : List (ℕ × List ℕ)) (d : ℚ)
    (maxIterations k : ℕ) (hn : 1 ≤ outgoing.length) (hd0 : 0 ≤ d)
    (hd1 : d ≤ 1) (hk : 1 ≤ k) (hm : 1 ≤ maxIterations) :
    (∀ i, (1 - d) / outgoing.length
        ≤ xIter outgoing.length (adjMatrix outgoing) d k i) ∧
    ∀ i, (1 - d) / outgoing.length
        ≤ (solve outgoing d maxIterations).x i := by
  have hA := adjMatrix_nonneg outgoing
  refine ⟨fun i => xIter_floor hA hd0 hd1 hn k hk i, ?_⟩
  obtain ⟨m, _, hm1, hx', _⟩ := loopIter_pow (n := outgoing.length)
    (A := adjMatrix outgoing) (d := d) maxIterations 0
    (initVec outgoing.length) none
  have hsx : (solve outgoing d maxIterations).x
      = xIter outgoing.length (adjMatrix outgoing) d m := hx'
  rw [hsx]
  exact fun i => xIter_floor hA hd0 hd1 hn m (hm1 hm) i

unseal Rat.add Rat.mul Rat.inv Rat.sub in
theorem teleport_floor_holds_witness :
    (1 ≤ ([(0, [1]), (1, [])] : List (ℕ × List ℕ)).length ∧
      (0 : ℚ) ≤ 17 / 20 ∧ (17 : ℚ) / 20 ≤ 1 ∧ 1 ≤ 2 ∧ 1 ≤ 3) ∧
    ((∀ i, (1 - 17 / 20) / (([(0, [1]), (1, [])] :
          List (ℕ × List ℕ)).length : ℚ)
        ≤ xIter ([(0, [1]), (1, [])] : List (ℕ × List ℕ)).length
            (adjMatrix [(0, [1]), (1, [])]) (17 / 20) 2 i) ∧
      ∀ i, (1 - 17 / 20) / (([(0, [1]), (1, [])] :
          List (ℕ × List ℕ)).length : ℚ)
        ≤ (solve [(0, [1]), (1, [])] (17 / 20) 3).x i) :=
  ⟨⟨by decide, by decide, by decide, by decide, by decide⟩,
    teleport_floor_holds [(0, [1]), (1, [])] (17 / 20) 3 2
      (by decide) (by decide) (by decide) (by decide) (by decide)⟩

unseal Rat.add Rat.mul Rat.inv Rat.sub in
/-- Claim C4, counterexample.  The claim fails twice on the code.  With
`max_iterations = 0` the budget is exhausted yet the solver raises
(NameError on the loop-local `diff` in the post-loop logging) instead of
returning.  And the returned value carries no unconverged flag: on the
two-node graph `{0: [0], 1: [0]}` the run with budget 1 exhausts its
budget unconverged while the run with budget 2 converges, yet the two
calls return exactly the same page-to-score mapping, so no flag on the
result can distinguish them. -/
theorem nonconvergence_flag_counterexample :
    computePagerank [(0, [0]), (1, [0])] [] (17 / 20) 0
        = .error .nameError ∧
    (solve [(0, [0]), (1, [0])] (17 / 20) 1).converged = false ∧
    (solve [(0, [0]), (1, [0])] (17 / 20) 2).converged = true ∧
    computePagerank [(0, [0]), (1, [0])] [] (17 / 20) 1
        = computePagerank [(0, [0]), (1, [0])] [] (17 / 20) 2 := by
  decide

/-- Claim C4, amended: when `max_iterations ≥ 1` is exhausted before the
fine threshold is met, the solver does not raise — the last iterate is
returned as the page-to-score mapping and the full budget was spent —
but the result carries no unconverged flag; non-convergence is only
printed, so the caller cannot read it off the returned value. -/
theorem exhausted_run_returns_mapping (outgoing incoming :
    List (ℕ × List ℕ)) (d : ℚ) (maxIterations : ℕ)
    (hn : outgoing ≠ []) (hm : 1 ≤ maxIterations)
    (hunc : (solve outgoing d maxIterations).converged = false) :
    computePagerank outgoing incoming d maxIterations
      = .ok ((List.range outgoing.length).map fun i =>
          (pageAt outgoing i, (solve outgoing d maxIterations).x i)) ∧
    (solve outgoing d maxIterations).iters = maxIterations := by
  have hlen : outgoing.length ≠ 0 := fun h => hn (List.length_eq_zero.mp h)
  constructor
  · unfold computePagerank
    rw [if_neg hlen, if_neg (by omega)]
  · have hit := loopIter_unconverged (n := outgoing.length)
      (A := adjMatrix outgoing) (d := d) maxIterations 0
      (initVec outgoing.length) none hunc
    have hit' : (solve outgoing d maxIterations).iters
        = 0 + maxIterations := hit
    rw [hit']
    omega

unseal Rat.add Rat.mul Rat.inv Rat.sub in
theorem exhausted_run_returns_mapping_witness :
    (([(0, [1]), (1, [])] : List (ℕ × List ℕ)) ≠ [] ∧ 1 ≤ 1 ∧
      (solve [(0, [1]), (1, [])] (17 / 20) 1).converged = false) ∧
    (computePagerank [(0, [1]), (1, [])] [] (17 / 20) 1
        = .ok ((List.range ([(0, [1]), (1, [])] :
            List (ℕ × List ℕ)).length).map fun i =>
          (pageAt [(0, [1]), (1, [])] i,
            (solve [(0, [1]), (1, [])] (17 / 20) 1).x i)) ∧
      (solve [(0, [1]), (1, [])] (17 / 20) 1).iters = 1) :=
  ⟨⟨by decide, by decide, by decide⟩,
    exhausted_run_returns_mapping [(0, [1]), (1, [])] [] (17 / 20) 1
      (by decide) (by decide) (by decide)⟩

lemma adjMatrix_zero_of_all_dangling {outgoing : List (ℕ × List ℕ)}
    (hdang : ∀ i < outgoing.length,
      outDeg outgoing.length (adjMatrix outgoing) i = 0)
    (i j : ℕ) : adjMatrix outgoing i j = 0 := by
  by_cases hi : i < outgoing.length
  · by_cases hj : j < outgoing.length
    · have hsum := hdang i hi
      unfold outDeg at hsum
      exact (Finset.sum_eq_zero_iff_of_nonneg
        (fun j' _ => adjMatrix_nonneg outgoing i j')).mp hsum j
        (Finset.mem_range.mpr hj)
    · exact if_neg fun h => hj h.2.1
  · exact if_neg fun h => hi h.1

lemma step_all_dangling_fixed {outgoing : List (ℕ × List ℕ)}
    (hn : 0 < outgoing.length)
    (hdang : ∀ i < outgoing.length,
      outDeg outgoing.length (adjMatrix outgoing) i = 0) (d : ℚ) :
    step outgoing.length (adjMatrix outgoing) d
        (initVec outgoing.length)
      = initVec outgoing.length := by
  have hn' : ((outgoing.length : ℚ)) ≠ 0 :=
    Nat.cast_ne_zero.mpr hn.ne'
  have hA0 := adjMatrix_zero_of_all_dangling hdang
  have hpre : ∀ j, preStep outgoing.length (adjMatrix outgoing) d
      (initVec outgoing.length) j = 1 / outgoing.length := by
    intro j
    unfold preStep
    have h1 : ∑ i ∈ Finset.range outgoing.length,
        initVec outgoing.length i
          * transMat outgoing.length (adjMatrix outgoing) i j = 0 :=
      Finset.sum_eq_zero fun i _ => by
        unfold transMat
        rw [hA0]
        simp
    have h2 : danglingSum outgoing.length (adjMatrix outgoing)
        (initVec outgoing.length) = 1 := by
      unfold danglingSum
      rw [Finset.sum_congr rfl
        (fun i hi => if_pos (hdang i (Finset.mem_range.mp hi)))]
      exact initVec_sum hn
    rw [h1, h2]
    field_simp
  have hsum : stepSum outgoing.length (adjMatrix outgoing) d
      (initVec outgoing.length) = 1 := by
    unfold stepSum
    rw [Finset.sum_congr rfl fun j _ => hpre j]
    exact initVec_sum hn
  funext j
  unfold step
  rw [hsum, hpre j, div_one]
  rfl

/-- Claim C5: on a graph in which every node has out-degree zero (all
targets unknown or absent), the solver does not fail, the clamped
out-degrees used for row division are never zero, and the returned
scores are the uniform distribution `1/N`. -/
theorem all_dangling_yields_uniform (outgoing incoming :
    List (ℕ × List ℕ)) (d : ℚ) (maxIterations : ℕ)
    (hn : 1 ≤ outgoing.length) (hm : 1 ≤ maxIterations)
    (hdang : ∀ i < outgoing.length,
      outDeg outgoing.length (adjMatrix outgoing) i = 0) :
    computePagerank outgoing incoming d maxIterations
      = .ok ((List.range outgoing.length).map fun i =>
          (pageAt outgoing i, 1 / (outgoing.length : ℚ))) ∧
    ∀ i, clampDeg outgoing.length (adjMatrix outgoing) i ≠ 0 := by
  have hn0 : 0 < outgoing.length := hn
  have hfix := step_all_dangling_fixed hn0 hdang d
  refine ⟨?_, fun i =>
    (clampDeg_pos (adjMatrix_nonneg outgoing) i).ne'⟩
  have hcQ : (0 : ℚ) < outgoing.length := by exact_mod_cast hn0
  have hlt : l1diff outgoing.length
      ((step outgoing.length (adjMatrix outgoing) d)^[0 + 1]
        (initVec outgoing.length))
      ((step outgoing.length (adjMatrix outgoing) d)^[0]
        (initVec outgoing.length))
      < fineTol outgoing.length := by
    simp only [zero_add, Function.iterate_one, Function.iterate_zero_apply]
    rw [hfix]
    have hz : l1diff outgoing.length (initVec outgoing.length)
        (initVec outgoing.length) = 0 := by
      unfold l1diff
      simp
    rw [hz]
    unfold fineTol
    exact mul_pos hcQ (by norm_num)
  obtain ⟨g1, _, _⟩ := loopIter_first (n := outgoing.length)
    (A := adjMatrix outgoing) (d := d) maxIterations 0 0
    (initVec outgoing.length) none (by omega)
    (fun j hj => absurd hj (by omega)) hlt
  have hsx : (solve outgoing d maxIterations).x
      = (step outgoing.length (adjMatrix outgoing) d)^[0 + 1]
        (initVec outgoing.length) := g1
  unfold computePagerank
  rw [if_neg (by omega), if_neg (by omega)]
  congr 1
  refine List.map_congr_left fun i _ => ?_
  rw [hsx]
  simp only [zero_add, Function.iterate_one]
  rw [hfix]
  rfl

unseal Rat.add Rat.mul Rat.inv Rat.sub in
theorem all_dangling_yields_uniform_witness :
    (1 ≤ ([(0, [5]), (1, [])] : List (ℕ × List ℕ)).length ∧ 1 ≤ 200 ∧
      (∀ i < ([(0, [5]), (1, [])] : List (ℕ × List ℕ)).length,
        outDeg ([(0, [5]), (1, [])] : List (ℕ × List ℕ)).length
          (adjMatrix [(0, [5]), (1, [])]) i = 0)) ∧
    (computePagerank [(0, [5]), (1, [])] [] (17 / 20) 200
        = .ok ((List.range ([(0, [5]), (1, [])] :
            List (ℕ × List ℕ)).length).map fun i =>
          (pageAt [(0, [5]), (1, [])] i,
            1 / ((([(0, [5]), (1, [])] :
              List (ℕ × List ℕ)).length : ℕ) : ℚ))) ∧
      ∀ i, clampDeg ([(0, [5]), (1, [])] : List (ℕ × List ℕ)).length
        (adjMatrix [(0, [5]), (1, [])]) i ≠ 0) :=
  ⟨⟨by decide, by decide, by decide⟩,
    all_dangling_yields_uniform [(0, [5]), (1, [])] [] (17 / 20) 200
      (by decide) (by decide) (by decide)⟩

lemma map_dedup_keys (o : List (ℕ × List ℕ)) :
    (o.map fun pt => (pt.1, pt.2.dedup)).map Prod.fst = o.map Prod.fst := by
  rw [List.map_map]
  rfl

lemma sortedPages_map_dedup (o : List (ℕ × List ℕ)) :
    sortedPages (o.map fun pt => (pt.1, pt.2.dedup)) = sortedPages o := by
  unfold sortedPages
  rw [map_dedup_keys]

lemma pageAt_map_dedup (o : List (ℕ × List ℕ)) (i : ℕ) :
    pageAt (o.map fun pt => (pt.1, pt.2.dedup)) i = pageAt o i := by
  unfold pageAt
  rw [sortedPages_map_dedup]

lemma lookup_map_dedup (o : List (ℕ × List ℕ)) (p : ℕ) :
    (o.map fun pt => (pt.1, pt.2.dedup)).lookup p
      = (o.lookup p).map List.dedup := by
  induction o with
  | nil => rfl
  | cons a l ih =>
    obtain ⟨k, v⟩ := a
    cases h : p == k <;> simp [List.lookup, h, ih]

lemma targetsOf_map_dedup (o : List (ℕ × List ℕ)) (p : ℕ) :
    targetsOf (o.map fun pt => (pt.1, pt.2.dedup)) p
      = (targetsOf o p).dedup := by
  unfold targetsOf
  rw [lookup_map_dedup]
  cases o.lookup p <;> simp

lemma edge_map_dedup (o : List (ℕ × List ℕ)) (i j : ℕ) :
    Edge (o.map fun pt => (pt.1, pt.2.dedup)) i j ↔ Edge o i j := by
  unfold Edge
  rw [List.length_map, pageAt_map_dedup, pageAt_map_dedup,
    targetsOf_map_dedup, List.mem_dedup]

lemma adjMatrix_map_dedup (o : List (ℕ × List ℕ)) :
    adjMatrix (o.map fun pt => (pt.1, pt.2.dedup)) = adjMatrix o := by
  funext i j
  unfold adjMatrix
  simp only [edge_map_dedup]

/-- Claim C6: repeated occurrences of the same target in a source's edge
list count as one edge — `compute_pagerank` on any input and on its
per-source deduplicated equivalent (same `incoming`, damping and
`max_iterations`) return identical page-to-score mappings. -/
theorem duplicate_edges_count_once (outgoing incoming :
    List (ℕ × List ℕ)) (d : ℚ) (maxIterations : ℕ) :
    computePagerank (outgoing.map fun pt => (pt.1, pt.2.dedup)) incoming
        d maxIterations
      = computePagerank outgoing incoming d maxIterations := by
  unfold computePagerank solve
  rw [List.length_map, adjMatrix_map_dedup]
  simp only [pageAt_map_dedup]

unseal Rat.add Rat.mul Rat.inv Rat.sub in
/-- Claim C8, counterexample: on an empty node set (default damping 0.85
and `max_iterations = 200`) `compute_pagerank` does fail before any
iteration, but with a ZeroDivisionError raised by `1.0 / n` while
building the initial vector — there is no `EmptyGraph` error anywhere in
the code. -/
theorem empty_graph_error_counterexample :
    computePagerank [] [] (17 / 20) 200 = .error .zeroDivisionError ∧
    computePagerank [] [] (17 / 20) 200 ≠ .error .emptyGraph := by
  decide

/-- Claim C8, amended: if the input node set is empty, `compute_pagerank`
fails before any iteration runs and no ranking is returned — but the
failure is a ZeroDivisionError from evaluating `1.0 / n` for the initial
uniform vector, not a dedicated `EmptyGraph` error. -/
theorem empty_graph_divides_by_zero (incoming : List (ℕ × List ℕ))
    (d : ℚ) (maxIterations : ℕ) :
    computePagerank [] incoming d maxIterations
      = .error .zeroDivisionError := rfl

unseal Rat.add Rat.mul Rat.inv Rat.sub in
/-- Claim C9, counterexample: with damping 2 — far outside `(0,1)` — and
a non-empty graph, `compute_pagerank` raises no `InvalidDamping` error;
it runs the power iteration and returns a ranking. -/
theorem invalid_damping_counterexample :
    computePagerank [(0, [0])] [] 2 200 ≠ .error .invalidDamping ∧
    computePagerank [(0, [0])] [] 2 200 = .ok [(0, 1)] := by
  decide

/-- Claim C9, amended: the code never validates the damping factor.  For
every damping value whatsoever (inside or outside `(0,1)`), as long as
the graph is non-empty and at least one iteration is allowed,
`compute_pagerank` returns a ranking rather than failing. -/
theorem damping_never_validated (outgoing incoming : List (ℕ × List ℕ))
    (d : ℚ) (maxIterations : ℕ) (hn : outgoing ≠ [])
    (hm : 1 ≤ maxIterations) :
    ∃ scores, computePagerank outgoing incoming d maxIterations
      = .ok scores := by
  unfold computePagerank
  rw [if_neg (fun h => hn (List.length_eq_zero.mp h)), if_neg (by omega)]
  exact ⟨_, rfl⟩

unseal Rat.add Rat.mul Rat.inv Rat.sub in
theorem damping_never_validated_witness :
    (([(0, [0])] : List (ℕ × List ℕ)) ≠ [] ∧ 1 ≤ 200) ∧
    ∃ scores, computePagerank [(0, [0])] [] 2 200 = .ok scores :=
  ⟨⟨by decide, by decide⟩,
    damping_never_validated [(0, [0])] [] 2 200 (by decide) (by decide)⟩

/-- Claim C10: the `incoming` argument is never read by the body of
`compute_pagerank`; the result is fully determined by `outgoing`, the
damping factor and `max_iterations`, so any two `incoming` values give
equal results. -/
theorem incoming_has_no_influence (outgoing inc1 inc2 :
    List (ℕ × List ℕ)) (d : ℚ) (maxIterations : ℕ) :
    computePagerank outgoing inc1 d maxIterations
      = computePagerank outgoing inc2 d maxIterations := rfl

end PageRank
